import Mathlib

/-!
# Shallow embedding of the multichain-indexer Bitcoin pipeline

This file embeds the Bitcoin ingestion and transfer-extraction pipeline of the
`multichain-indexer` repository (packages `internal/rpc/bitcoin` and
`internal/indexer`) and proves the properties claimed about it.

Modelling conventions:
* `shopspring/decimal.Decimal` values are modelled as exact rationals (`Rat`);
  decimal `Add`/`Sub`/`IsZero`/`IsNegative` are exact on the embedded values,
  and `decimal.NewFromFloat` is the identity on the modelled value.
* Go slices become `List`, Go `nil` pointers become `Option`, and fallible
  Go functions returning `(T, error)` become `Except`/`Option` results.
* The RPC boundary (`CallRPC` + JSON decode) is modelled as an oracle function
  supplied as a parameter; the Go worker pools that write results into
  disjoint slots are modelled by their per-slot sequential denotation.
-/

namespace MCI

/-- `ScriptPubKey` from src/internal/rpc/bitcoin/types.go.  Field defaults are
the Go zero values. -/
structure ScriptPubKey where
  asm : String := ""
  hex : String := ""
  scriptType : String := ""
  address : String := ""
  addresses : List String := []
  deriving DecidableEq

/-- `ScriptSig` from src/internal/rpc/bitcoin/types.go. -/
structure ScriptSig where
  asm : String := ""
  hex : String := ""
  deriving DecidableEq

/-- `PrevOut` from src/internal/rpc/bitcoin/types.go (value is `float64` in Go,
parsed from Bitcoin Core JSON; modelled as an exact rational). -/
structure PrevOut where
  value : Rat := 0
  scriptPubKey : ScriptPubKey := {}
  deriving DecidableEq

/-- `Vin` from src/internal/rpc/bitcoin/types.go. -/
structure Vin where
  txid : String := ""
  vout : Nat := 0
  scriptSig : Option ScriptSig := none
  sequence : Nat := 0
  coinbase : String := ""
  prevOut : Option PrevOut := none
  deriving DecidableEq

/-- `Vout` from src/internal/rpc/bitcoin/types.go. -/
structure Vout where
  value : Rat := 0
  n : Nat := 0
  scriptPubKey : ScriptPubKey := {}
  deriving DecidableEq

/-- `Transaction` from src/internal/rpc/bitcoin/types.go (the fields read by
the embedded functions). -/
structure Transaction where
  txid : String := ""
  hash : String := ""
  version : Int := 0
  vsize : Int := 0
  locktime : Nat := 0
  vin : List Vin := []
  vout : List Vout := []
  deriving DecidableEq

/-- `Block` from src/internal/rpc/bitcoin/types.go (the fields read by the
embedded functions). -/
structure Block where
  hash : String := ""
  height : Int := 0
  time : Int := 0
  previousBlockHash : String := ""
  tx : List Transaction := []
  deriving DecidableEq

/-- `ExtractAddresses` from src/unnamed/part_001: append the modern single
`address` field when non-empty, then append the legacy `addresses` list when
non-empty. -/
def ExtractAddresses (spk : ScriptPubKey) : List String :=
  (if spk.address = "" then [] else [spk.address]) ++
    (if spk.addresses.length > 0 then spk.addresses else [])

/-- The spec's description of `extractAddresses` (used to check claim C6):
"returns `[spk.address] ++ spk.addresses`, skipping empties". -/
def specExtractAddresses (spk : ScriptPubKey) : List String :=
  ([spk.address] ++ spk.addresses).filter (fun a => decide (a ≠ ""))

theorem extractAddresses_eq (spk : ScriptPubKey) :
    ExtractAddresses spk =
      (if spk.address = "" then [] else [spk.address]) ++ spk.addresses := by
  unfold ExtractAddresses
  rcases spk.addresses with _ | ⟨a, l⟩ <;> simp

/-- `MainnetBech32HRP` from src/unnamed/part_001. -/
def MainnetBech32HRP : String := "bc"

/-- `TestnetBech32HRP` from src/unnamed/part_001. -/
def TestnetBech32HRP : String := "tb"

/-- Modelled from the spec: the third-party `bech32.ConvertBits(data, 5, 8,
pad=false)` regrouping (package `btcsuite/btcutil/bech32`, not part of this
repository).  Converts 5-bit groups to 8-bit bytes; rejects any input value
outside 5 bits and any nonzero or oversized leftover padding ("no padding").
`acc` is the bit accumulator (holding `bits` buffered bits) and `out` the
emitted bytes so far. -/
def convertBits5to8Core : List Nat → Nat → Nat → List Nat → Option (List Nat)
  | [], acc, bits, out =>
    if 5 ≤ bits then none
    else if acc % 2 ^ bits ≠ 0 then none
    else some out
  | v :: rest, acc, bits, out =>
    if 32 ≤ v then none
    else
      -- shift 5 fresh bits in (masked to fromBits + toBits - 1 = 12 bits)
      let acc2 := (acc * 32 + v) % 2 ^ 12
      let bits2 := bits + 5
      if 8 ≤ bits2 then
        convertBits5to8Core rest acc2 (bits2 - 8) (out ++ [acc2 / 2 ^ (bits2 - 8) % 256])
      else
        convertBits5to8Core rest acc2 bits2 out

/-- Modelled from the spec: 5-bit to 8-bit regrouping with no padding, as used
on the Bech32 payload after the witness-version symbol. -/
def convertBits5to8 (data : List Nat) : Option (List Nat) :=
  convertBits5to8Core data 0 0 []

/-- `IsValidBech32Address` from src/unnamed/part_001.  The third-party
`bech32.Decode` (package `btcsuite/btcutil/bech32`, not part of this
repository) is abstracted as the `decode` parameter, returning the
human-readable part and the 5-bit data symbols on success. -/
def IsValidBech32Address (decode : String → Option (String × List Nat))
    (addr : String) (isTestnet : Bool) : Bool :=
  -- expectedHRP := "bc", or "tb" when isTestnet (the Go local variable is
  -- inlined at its single use site)
  match decode addr with
  | none => false
  | some (hrp, data) =>
    if hrp ≠ (if isTestnet then TestnetBech32HRP else MainnetBech32HRP) then false
    else
      match data with
      | [] => false
      | witnessVersion :: payload =>
        -- Convert from 5-bit to 8-bit encoding (excluding the version symbol)
        match convertBits5to8 payload with
        | none => false
        | some witnessProgram =>
          -- Witness v0: 20 bytes for P2WPKH, 32 bytes for P2WSH
          if witnessVersion = 0 ∧ witnessProgram.length ≠ 20 ∧ witnessProgram.length ≠ 32 then
            false
          -- Witness v1 (Taproot): must be 32 bytes
          else if witnessVersion = 1 ∧ witnessProgram.length ≠ 32 then
            false
          else
            true

/-- `Transaction.IsCoinbase` from src/internal/rpc/bitcoin/tx.go:
`len(tx.Vin) > 0 && tx.Vin[0].Coinbase != ""`. -/
def Transaction.IsCoinbase (tx : Transaction) : Bool :=
  match tx.vin with
  | [] => false
  | v :: _ => v.coinbase ≠ ""

/-- `Transaction.HasPrevOutData` from src/internal/rpc/bitcoin/tx.go: false for
coinbase, otherwise true when some vin carries prevout data. -/
def Transaction.HasPrevOutData (tx : Transaction) : Bool :=
  if tx.IsCoinbase then false
  else tx.vin.any (fun vin => vin.prevOut.isSome)

/-- `Transaction.CalculateTotalInput` from src/internal/rpc/bitcoin/tx.go: sums
`vin.PrevOut.Value` over inputs with prevout data and positive value. -/
def Transaction.CalculateTotalInput (tx : Transaction) : Rat :=
  tx.vin.foldl
    (fun total vin =>
      match vin.prevOut with
      | some p => if 0 < p.value then total + p.value else total
      | none => total)
    0

/-- `Transaction.CalculateTotalOutput` from src/internal/rpc/bitcoin/tx.go:
sums `vout.Value` over positive-value outputs. -/
def Transaction.CalculateTotalOutput (tx : Transaction) : Rat :=
  tx.vout.foldl (fun total vout => if 0 < vout.value then total + vout.value else total) 0

/-- `Transaction.CalculateFee` from src/unnamed/part_003: zero for coinbase and
for transactions without prevout data, otherwise input total minus output
total, clamped below at zero. -/
def Transaction.CalculateFee (tx : Transaction) : Rat :=
  if tx.IsCoinbase then 0
  else if ¬tx.HasPrevOutData then 0
  else
    let fee := tx.CalculateTotalInput - tx.CalculateTotalOutput
    if fee < 0 then 0 else fee

/-- `Transaction.ExtractInputAddresses` from src/internal/rpc/bitcoin/tx.go:
the ordered-unique list of addresses extracted from the prevouts of
non-coinbase inputs.  (Go uses a `map[string]bool` seen-set plus an ordered
slice; membership in the accumulated list is equivalent.) -/
def Transaction.ExtractInputAddresses (tx : Transaction) : List String :=
  tx.vin.foldl
    (fun acc vin =>
      if vin.coinbase ≠ "" then acc
      else
        match vin.prevOut with
        | none => acc
        | some p =>
          (ExtractAddresses p.scriptPubKey).foldl
            (fun acc2 addr => if addr ∈ acc2 then acc2 else acc2 ++ [addr]) acc)
    []

/-- `insertAdd m addr v` models `outputs[addr] = existing + v` /
`outputs[addr] = v` on a Go map, represented as an association list in key
insertion order. -/
def insertAdd : List (String × Rat) → String → Rat → List (String × Rat)
  | [], addr, v => [(addr, v)]
  | (a, x) :: rest, addr, v =>
    if a = addr then (a, x + v) :: rest else (a, x) :: insertAdd rest addr v

/-- One step of `Transaction.GroupOutputsByAddress` (the body of the `vout`
loop in src/internal/rpc/bitcoin/tx.go). -/
def groupStep (outputs : List (String × Rat)) (vout : Vout) : List (String × Rat) :=
  if vout.value ≤ 0 then outputs
  else
    let addresses := ExtractAddresses vout.scriptPubKey
    if addresses.length = 0 then outputs
    else addresses.foldl (fun m addr => insertAdd m addr vout.value) outputs

/-- `Transaction.GroupOutputsByAddress` from src/internal/rpc/bitcoin/tx.go.
The Go version accumulates into a `map[string]decimal.Decimal`, whose
iteration order is unspecified; the model fixes key insertion order.  The
claims proved below are insensitive to that choice (they are stated relative
to emission order). -/
def Transaction.GroupOutputsByAddress (tx : Transaction) : List (String × Rat) :=
  tx.vout.foldl groupStep []

/-- Modelled from the spec: the transaction-type constants of the missing
package `pkg/common/constant` ("type ∈ {mining, transfer}"). -/
inductive TxnType where
  | mining
  | transfer
  deriving DecidableEq

/-- `types.Transaction` of the missing package `pkg/common/types`, the
normalized transfer record, modelled from the spec's `NormalizedTransfer`:
`{txHash, networkId, blockNumber, fromAddress, toAddress, assetAddress,
amountBTC, type, txFee, timestamp}`.  The Go `Amount` field stores
`value.String()`; since `decimal.String` is injective the model keeps the
numeric value itself. -/
structure NormalizedTx where
  txHash : String := ""
  networkId : String := ""
  blockNumber : Nat := 0
  fromAddress : String := ""
  toAddress : String := ""
  assetAddress : String := ""
  amount : Rat := 0
  txnType : TxnType := TxnType.transfer
  txFee : Rat := 0
  timestamp : Nat := 0
  deriving DecidableEq

/-- The mining transfer record built in the coinbase branch of
`ExtractTransfers` (src/internal/rpc/bitcoin/tx.go). -/
def mkMiningTransfer (txid networkID : String) (blockNum timestamp : Nat)
    (toAddr : String) (amount : Rat) : NormalizedTx :=
  { txHash := txid, networkId := networkID, blockNumber := blockNum,
    fromAddress := "coinbase", toAddress := toAddr, assetAddress := "",
    amount := amount, txnType := TxnType.mining, txFee := 0,
    timestamp := timestamp }

/-- The regular transfer record built in the non-coinbase branches of
`ExtractTransfers`; `feeVal` is the `TxFee` it ends up carrying (the Go code
builds it with `TxFee: decimal.Zero` and conditionally overwrites it with the
fee before appending). -/
def mkTransfer (txid networkID : String) (blockNum timestamp : Nat)
    (fromAddr toAddr : String) (amount feeVal : Rat) : NormalizedTx :=
  { txHash := txid, networkId := networkID, blockNumber := blockNum,
    fromAddress := fromAddr, toAddress := toAddr, assetAddress := "",
    amount := amount, txnType := TxnType.transfer, txFee := feeVal,
    timestamp := timestamp }

@[simp] theorem mkMiningTransfer_toAddress (txid nid : String) (bn ts : Nat)
    (a : String) (v : Rat) : (mkMiningTransfer txid nid bn ts a v).toAddress = a := rfl

@[simp] theorem mkMiningTransfer_txFee (txid nid : String) (bn ts : Nat)
    (a : String) (v : Rat) : (mkMiningTransfer txid nid bn ts a v).txFee = 0 := rfl

@[simp] theorem mkMiningTransfer_amount (txid nid : String) (bn ts : Nat)
    (a : String) (v : Rat) : (mkMiningTransfer txid nid bn ts a v).amount = v := rfl

@[simp] theorem mkMiningTransfer_fromAddress (txid nid : String) (bn ts : Nat)
    (a : String) (v : Rat) :
    (mkMiningTransfer txid nid bn ts a v).fromAddress = "coinbase" := rfl

@[simp] theorem mkMiningTransfer_txnType (txid nid : String) (bn ts : Nat)
    (a : String) (v : Rat) :
    (mkMiningTransfer txid nid bn ts a v).txnType = TxnType.mining := rfl

@[simp] theorem mkTransfer_toAddress (txid nid : String) (bn ts : Nat)
    (f a : String) (v w : Rat) : (mkTransfer txid nid bn ts f a v w).toAddress = a := rfl

@[simp] theorem mkTransfer_txFee (txid nid : String) (bn ts : Nat)
    (f a : String) (v w : Rat) : (mkTransfer txid nid bn ts f a v w).txFee = w := rfl

@[simp] theorem mkTransfer_amount (txid nid : String) (bn ts : Nat)
    (f a : String) (v w : Rat) : (mkTransfer txid nid bn ts f a v w).amount = v := rfl

/-- One step of the coinbase branch of `ExtractTransfers`
(src/internal/rpc/bitcoin/tx.go, the `tx.Vout` loop). -/
def coinbaseStep (txid networkID : String) (blockNum timestamp : Nat)
    (transfers : List NormalizedTx) (vout : Vout) : List NormalizedTx :=
  if vout.value ≤ 0 then transfers
  else
    let addresses := ExtractAddresses vout.scriptPubKey
    if addresses.length = 0 then transfers
    else
      transfers ++ addresses.map (fun addr =>
        mkMiningTransfer txid networkID blockNum timestamp addr vout.value)

/-- One step of the regular (inputs known) branch of `ExtractTransfers`: the
body of the `outputsByAddress` loop.  State is `(feeAssigned, transfers)`;
the fee is assigned to the first non-change output when it is nonzero. -/
def regularStep (inputAddresses : List String) (fromAddr txid networkID : String)
    (blockNum timestamp : Nat) (fee : Rat)
    (st : Bool × List NormalizedTx) (p : String × Rat) : Bool × List NormalizedTx :=
  let isChange := p.1 ∈ inputAddresses
  if st.1 = false ∧ ¬isChange ∧ fee ≠ 0 then
    (true, st.2 ++ [mkTransfer txid networkID blockNum timestamp fromAddr p.1 p.2 fee])
  else
    (st.1, st.2 ++ [mkTransfer txid networkID blockNum timestamp fromAddr p.1 p.2 0])

/-- One step of the fallback (no known inputs) branch of `ExtractTransfers`:
sender is unknown (`""`) and the fee goes to the first emitted transfer. -/
def fallbackStep (txid networkID : String) (blockNum timestamp : Nat) (fee : Rat)
    (st : Bool × List NormalizedTx) (p : String × Rat) : Bool × List NormalizedTx :=
  if st.1 = false ∧ fee ≠ 0 then
    (true, st.2 ++ [mkTransfer txid networkID blockNum timestamp "" p.1 p.2 fee])
  else
    (st.1, st.2 ++ [mkTransfer txid networkID blockNum timestamp "" p.1 p.2 0])

/-- `Transaction.ExtractTransfers` from src/internal/rpc/bitcoin/tx.go. -/
def Transaction.ExtractTransfers (tx : Transaction) (networkID : String)
    (blockNum timestamp : Nat) (fee : Rat) : List NormalizedTx :=
  if tx.IsCoinbase then
    tx.vout.foldl (coinbaseStep tx.txid networkID blockNum timestamp) []
  else
    let inputAddresses := tx.ExtractInputAddresses
    let outputsByAddress := tx.GroupOutputsByAddress
    match inputAddresses with
    | a0 :: rest =>
      -- Use the first input address as "from"; composite marker when several
      let fromAddr :=
        if 0 < rest.length then a0 ++ "+" ++ toString rest.length ++ "_more" else a0
      (outputsByAddress.foldl
        (regularStep (a0 :: rest) fromAddr tx.txid networkID blockNum timestamp fee)
        (false, [])).2
    | [] =>
      (outputsByAddress.foldl
        (fallbackStep tx.txid networkID blockNum timestamp fee)
        (false, [])).2

/-- `RPCError` from src/unnamed/part_000. -/
structure RPCError where
  code : Int := 0
  message : String := ""
  deriving DecidableEq

/-- The Bitcoin client's RPC boundary, modelled as an oracle: `getblock hash
verbosity` stands for `CallRPC(ctx, "getblock", [hash, verbosity])` followed by
the JSON decode into `Block` (src/unnamed/part_002). -/
structure BitcoinRPC where
  getblock : String → Nat → Except RPCError Block

/-- `Client.GetBlockVerbose` from src/unnamed/part_002: `getblock` at
verbosity 2. -/
def GetBlockVerbose (c : BitcoinRPC) (hash : String) : Except RPCError Block :=
  c.getblock hash 2

/-- `Client.GetBlockWithPrevOut` from src/unnamed/part_002: `getblock` at
verbosity 3; on any error, fall back to `GetBlockVerbose` (verbosity 2). -/
def GetBlockWithPrevOut (c : BitcoinRPC) (hash : String) : Except RPCError Block :=
  match c.getblock hash 3 with
  | Except.ok blk => Except.ok blk
  | Except.error _ => GetBlockVerbose c hash

/-- The per-vin body of `Client.EnrichBlockWithPrevOuts`
(src/unnamed/part_002).  `fetch txid` stands for
`GetRawTransaction(ctx, txid, 1)`, with `none` for an RPC failure.  The
referenced output is read only under the Go guard
`int(vin.Vout) < len(prevTx.Vout)`. -/
def enrichVin (fetch : String → Option Transaction) (vin : Vin) : Vin :=
  if vin.txid = "" ∨ vin.coinbase ≠ "" then vin
  else
    match fetch vin.txid with
    | none => vin
    | some prevTx =>
      if h : vin.vout < prevTx.vout.length then
        let prevOutV := prevTx.vout.get ⟨vin.vout, h⟩
        { vin with prevOut := some { value := prevOutV.value,
                                     scriptPubKey := prevOutV.scriptPubKey } }
      else vin

/-- The per-transaction body of `Client.EnrichBlockWithPrevOuts`: coinbase
transactions and transactions that already have prevout data are skipped;
otherwise every vin is enriched.  (The Go version runs the per-transaction
tasks under a 10-slot semaphore; each task mutates a disjoint transaction, so
the sequential per-transaction denotation is the same function of the
block.) -/
def enrichTx (fetch : String → Option Transaction) (tx : Transaction) : Transaction :=
  if tx.IsCoinbase then tx
  else if tx.HasPrevOutData then tx
  else { tx with vin := tx.vin.map (enrichVin fetch) }

/-- `Client.EnrichBlockWithPrevOuts` from src/unnamed/part_002.  A `nil` block
pointer is modelled as `none`. -/
def EnrichBlockWithPrevOuts (fetch : String → Option Transaction)
    (block : Option Block) : Except String Block :=
  match block with
  | none => Except.error "block is nil"
  | some b => Except.ok { b with tx := b.tx.map (enrichTx fetch) }

/-- `types.Block` of the missing package `pkg/common/types`, as produced by
`processBlock` (src/internal/indexer/bitcoin.go); modelled from the spec's
normalized `Block` record. -/
structure TypesBlock where
  number : Nat := 0
  hash : String := ""
  parentHash : String := ""
  timestamp : Nat := 0
  transactions : List NormalizedTx := []
  deriving DecidableEq

/-- Modelled from the spec: the `Error` record of `BlockResult`
(`{ErrorType, Message}`, §6); the `ErrorType` carried by the missing
`ErrorTypeUnknown` constant is kept abstract as a string tag. -/
structure IndexError where
  errorType : String := "unknown"
  message : String := ""
  deriving DecidableEq

/-- Modelled from the spec: `BlockResult: {Number, Block, Error}` (§6), the
per-slot result type of the missing `internal/indexer` declarations. -/
structure BlockResult where
  number : Nat := 0
  block : Option TypesBlock := none
  error : Option IndexError := none
  deriving DecidableEq

/-- The first-error scan at the end of `GetBlocksByNumbers`
(src/internal/indexer/bitcoin.go): the first slot with a non-nil error yields
`fmt.Errorf("block %d: %s", r.Number, r.Error.Message)`. -/
def firstError : List BlockResult → Option String
  | [] => none
  | r :: rest =>
    match r.error with
    | some e => some ("block " ++ toString r.number ++ ": " ++ e.message)
    | none => firstError rest

/-- `BitcoinIndexer.GetBlocksByNumbers` from src/internal/indexer/bitcoin.go.
`g n` stands for `b.GetBlock(ctx, n)`, returning the block pointer and the
error message.  The Go worker pool writes each result into its input slot
(`blocks[j.index]`); the model is its per-slot sequential denotation with the
context never cancelled.  The result slice is `Option`-wrapped to keep the
`nil` slice of the empty-input early return distinct. -/
def GetBlocksByNumbers (g : Nat → Option TypesBlock × Option String)
    (nums : List Nat) : Option (List BlockResult) × Option String :=
  if nums.length = 0 then (none, none)
  else
    let blocks := nums.map (fun n =>
      let r := g n
      { number := n, block := r.1,
        error := r.2.map (fun msg => { errorType := "unknown", message := msg }) : BlockResult })
    (some blocks, firstError blocks)

/-- `BitcoinIndexer.GetBlocks` from src/internal/indexer/bitcoin.go: reject
`to < from`, otherwise delegate to `GetBlocksByNumbers` on the heights
`from..to` built in ascending order. -/
def GetBlocks (g : Nat → Option TypesBlock × Option String)
    (lo hi : Nat) : Option (List BlockResult) × Option String :=
  if hi < lo then (none, some "invalid range")
  else GetBlocksByNumbers g (List.range' lo (hi - lo + 1))

/-- The input total named by the amended claim C1: the sum of `prevOut.value`
over the inputs that carry prevout data with positive value. -/
def prevOutInputSum (l : List Vin) : Rat :=
  (((l.filterMap Vin.prevOut).filter (fun p => decide (0 < p.value))).map PrevOut.value).sum

/-- The output total named by the amended claim C1: the sum of `vout.value`
over positive-value outputs. -/
def positiveOutputSum (l : List Vout) : Rat :=
  ((l.filter (fun v => decide (0 < v.value))).map Vout.value).sum

theorem totalInput_foldl_eq (l : List Vin) (acc : Rat) :
    (List.foldl
      (fun total vin =>
        match vin.prevOut with
        | some p => if 0 < p.value then total + p.value else total
        | none => total)
      acc l) = acc + prevOutInputSum l := by
  induction l generalizing acc with
  | nil => simp [prevOutInputSum]
  | cons v t ih =>
    rcases hp : v.prevOut with _ | p
    · simp [List.foldl_cons, hp, ih, prevOutInputSum, List.filterMap_cons]
    · by_cases hv : 0 < p.value
      · simp [List.foldl_cons, hp, hv, ih, prevOutInputSum, List.filterMap_cons,
          List.filter_cons]
        ring
      · simp [List.foldl_cons, hp, hv, ih, prevOutInputSum, List.filterMap_cons,
          List.filter_cons]

theorem totalOutput_foldl_eq (l : List Vout) (acc : Rat) :
    (List.foldl (fun total vout => if 0 < vout.value then total + vout.value else total)
      acc l) = acc + positiveOutputSum l := by
  induction l generalizing acc with
  | nil => simp [positiveOutputSum]
  | cons v t ih =>
    by_cases hv : 0 < v.value
    · simp [List.foldl_cons, hv, ih, positiveOutputSum, List.filter_cons]
      ring
    · simp [List.foldl_cons, hv, ih, positiveOutputSum, List.filter_cons]

theorem calculateTotalInput_eq (tx : Transaction) :
    tx.CalculateTotalInput = prevOutInputSum tx.vin := by
  unfold Transaction.CalculateTotalInput
  rw [totalInput_foldl_eq, zero_add]

theorem calculateTotalOutput_eq (tx : Transaction) :
    tx.CalculateTotalOutput = positiveOutputSum tx.vout := by
  unfold Transaction.CalculateTotalOutput
  rw [totalOutput_foldl_eq, zero_add]

theorem hasPrevOutData_eq_false (tx : Transaction)
    (h : ∀ v ∈ tx.vin, v.prevOut = none) : tx.HasPrevOutData = false := by
  unfold Transaction.HasPrevOutData
  split
  · rfl
  · simp only [List.any_eq_false]
    intro v hv
    simp [h v hv]

theorem hasPrevOutData_eq_true (tx : Transaction)
    (hc : tx.IsCoinbase = false) (h : ∃ v ∈ tx.vin, v.prevOut ≠ none) :
    tx.HasPrevOutData = true := by
  unfold Transaction.HasPrevOutData
  rw [hc]
  simp only [Bool.false_eq_true, if_false, List.any_eq_true]
  obtain ⟨v, hv, hsome⟩ := h
  exact ⟨v, hv, by simp [Option.isSome_iff_ne_none, hsome]⟩

theorem ite_neg_eq_max (x : Rat) : (if x < 0 then (0 : Rat) else x) = max 0 x := by
  rcases le_or_lt 0 x with h | h
  · rw [if_neg (not_lt.2 h), max_eq_right h]
  · rw [if_pos h, max_eq_left h.le]

/-- A non-coinbase transaction in which the first input carries prevout data
and the second does not: the counterexample input for claim C1. -/
def partialPrevOutTx : Transaction :=
  { vin := [{ txid := "aa", prevOut := some { value := 2 } }, { txid := "bb" }],
    vout := [{ value := 1 }] }

/-- Counterexample to claim C1: on a transaction where one input lacks prevOut
data (but another has it), `CalculateFee` does not return 0 — it computes the
fee from the partial input total (2 − 1 = 1). -/
theorem calculateFee_partial_prevout_cex :
    partialPrevOutTx.IsCoinbase = false ∧
      (∃ v ∈ partialPrevOutTx.vin, v.prevOut = none) ∧
      partialPrevOutTx.CalculateFee = 1 ∧ partialPrevOutTx.CalculateFee ≠ 0 := by
  refine ⟨by decide, by decide, ?_, ?_⟩ <;>
    simp [partialPrevOutTx, Transaction.CalculateFee, Transaction.IsCoinbase,
      Transaction.HasPrevOutData, Transaction.CalculateTotalInput,
      Transaction.CalculateTotalOutput] <;>
    norm_num

/-- Claim C1 (amended): `CalculateFee` returns 0 if the transaction is
coinbase or if NO input carries prevOut data; otherwise it returns the input
total minus the output total clamped below at 0, where the input total sums
`prevOut.value` over only those inputs that do carry prevOut data (with
positive value) — a partial input total is used when only some inputs have
prevOut — and the output total sums positive `vout.value`.  The returned fee
is never negative. -/
theorem calculateFee_spec (tx : Transaction) :
    (tx.IsCoinbase = true → tx.CalculateFee = 0) ∧
      ((∀ v ∈ tx.vin, v.prevOut = none) → tx.CalculateFee = 0) ∧
      (tx.IsCoinbase = false → (∃ v ∈ tx.vin, v.prevOut ≠ none) →
        tx.CalculateFee = max 0 (prevOutInputSum tx.vin - positiveOutputSum tx.vout)) ∧
      0 ≤ tx.CalculateFee := by
  refine ⟨?_, ?_, ?_, ?_⟩
  · intro h
    simp [Transaction.CalculateFee, h]
  · intro h
    have hno := hasPrevOutData_eq_false tx h
    unfold Transaction.CalculateFee
    split
    · rfl
    · simp [hno]
  · intro hc hex
    have hyes := hasPrevOutData_eq_true tx hc hex
    rw [← ite_neg_eq_max, ← calculateTotalInput_eq, ← calculateTotalOutput_eq]
    simp [Transaction.CalculateFee, hc, hyes]
  · unfold Transaction.CalculateFee
    split
    · exact le_refl 0
    · split
      · exact le_refl 0
      · show (0 : Rat) ≤
          if tx.CalculateTotalInput - tx.CalculateTotalOutput < 0 then 0
          else tx.CalculateTotalInput - tx.CalculateTotalOutput
        split
        · exact le_refl 0
        · exact le_of_not_lt (by assumption)

/-- Witness for `calculateFee_spec`: discharging its hypotheses at the
concrete transaction `partialPrevOutTx`. -/
theorem calculateFee_spec_witness :
    partialPrevOutTx.IsCoinbase = false ∧
      (∃ v ∈ partialPrevOutTx.vin, v.prevOut ≠ none) ∧
      partialPrevOutTx.CalculateFee =
        max 0 (prevOutInputSum partialPrevOutTx.vin -
          positiveOutputSum partialPrevOutTx.vout) :=
  ⟨by decide, by decide,
    (calculateFee_spec partialPrevOutTx).2.2.1 (by decide) (by decide)⟩

/-- A `ScriptPubKey` whose legacy `addresses` list contains an empty string:
the counterexample input for claim C6. -/
def emptyInAddressesSpk : ScriptPubKey := { address := "", addresses := ["", "a"] }

/-- Counterexample to claim C6: `ExtractAddresses` does not skip empty strings
occurring inside `spk.Addresses`; on `{address = "", addresses = ["", "a"]}` it
returns `["", "a"]`, not the `["a"]` the claim describes. -/
theorem extractAddresses_empty_cex :
    ExtractAddresses emptyInAddressesSpk = ["", "a"] ∧
      specExtractAddresses emptyInAddressesSpk = ["a"] ∧
      ExtractAddresses emptyInAddressesSpk ≠ specExtractAddresses emptyInAddressesSpk := by
  decide

/-- Claim C6 (amended): `ExtractAddresses(spk)` returns `[spk.Address] ++
spk.Addresses` where the single `spk.Address` entry is skipped when empty but
the `spk.Addresses` list is appended verbatim (empty strings inside it are
kept); the order of the entries is preserved. -/
theorem extractAddresses_spec (spk : ScriptPubKey) :
    ExtractAddresses spk =
      ([spk.address].filter (fun a => decide (a ≠ ""))) ++ spk.addresses := by
  rw [extractAddresses_eq]
  by_cases h : spk.address = "" <;> simp [h]

/-- Claim C7: `IsValidBech32Address(addr, isTestnet)` returns true iff `addr`
Bech32-decodes with HRP `"bc"` (mainnet) or `"tb"` (testnet), the payload
after the witness-version symbol regroups from 5-bit to 8-bit without
padding, and the witness program length is 20 or 32 bytes for witness
version 0, exactly 32 bytes for witness version 1, and unconstrained for
higher witness versions.  (The third-party `bech32.Decode` is the abstract
`decode` parameter.) -/
theorem isValidBech32Address_iff (decode : String → Option (String × List Nat))
    (addr : String) (isTestnet : Bool) :
    IsValidBech32Address decode addr isTestnet = true ↔
      ∃ ver rest witnessProgram,
        decode addr = some ((if isTestnet then "tb" else "bc"), ver :: rest) ∧
        convertBits5to8 rest = some witnessProgram ∧
        (ver = 0 → witnessProgram.length = 20 ∨ witnessProgram.length = 32) ∧
        (ver = 1 → witnessProgram.length = 32) := by
  unfold IsValidBech32Address
  have hhrp : (if isTestnet then TestnetBech32HRP else MainnetBech32HRP) =
      (if isTestnet then "tb" else "bc") := by
    cases isTestnet <;> rfl
  rw [hhrp]
  rcases hdec : decode addr with _ | ⟨hrp, data⟩
  · simp
  · dsimp only
    by_cases hh : hrp = (if isTestnet then "tb" else "bc")
    · subst hh
      rcases data with _ | ⟨ver, rest⟩
      · simp
      · rcases hcv : convertBits5to8 rest with _ | prog
        · simp [hcv]
        · simp only [hcv]
          rw [if_neg (by simp)]
          constructor
          · intro h
            by_cases hA : ver = 0 ∧ prog.length ≠ 20 ∧ prog.length ≠ 32
            · rw [if_pos hA] at h
              exact absurd h (by simp)
            · rw [if_neg hA] at h
              by_cases hB : ver = 1 ∧ prog.length ≠ 32
              · rw [if_pos hB] at h
                exact absurd h (by simp)
              · push_neg at hA hB
                refine ⟨ver, rest, prog, rfl, hcv, ?_, hB⟩
                intro h0
                by_cases h20 : prog.length = 20
                · exact Or.inl h20
                · exact Or.inr (hA h0 h20)
          · rintro ⟨ver2, rest2, prog2, heq, hcv2, h0, h1⟩
            have hpair : ver = ver2 ∧ rest = rest2 := by
              simpa using heq
            obtain ⟨hv, hr⟩ := hpair
            subst hv
            subst hr
            have hp : prog2 = prog := by
              rw [hcv] at hcv2
              exact (Option.some_inj.mp hcv2).symm
            subst hp
            rw [if_neg, if_neg]
            · rintro ⟨hv1, hlen⟩
              exact hlen (h1 hv1)
            · rintro ⟨hv0, hlen20, hlen32⟩
              rcases h0 hv0 with h | h
              · exact hlen20 h
              · exact hlen32 h
    · rw [if_pos hh]
      constructor
      · intro h
        exact absurd h (by simp)
      · rintro ⟨ver2, rest2, prog2, heq, _, _, _⟩
        exfalso
        apply hh
        have hpair : hrp = (if isTestnet then "tb" else "bc") ∧ data = ver2 :: rest2 := by
          simpa using heq
        exact hpair.1

theorem regular_foldl_true (ia : List String) (fa txid nid : String) (bn ts : Nat)
    (fee : Rat) (ps : List (String × Rat)) :
    ∀ acc : List NormalizedTx,
      ∃ suffix,
        ps.foldl (regularStep ia fa txid nid bn ts fee) (true, acc) = (true, acc ++ suffix) ∧
        ∀ u ∈ suffix, u.txFee = 0 := by
  induction ps with
  | nil =>
    intro acc
    exact ⟨[], by simp, by simp⟩
  | cons p t ih =>
    intro acc
    have hstep : regularStep ia fa txid nid bn ts fee (true, acc) p =
        (true, acc ++ [mkTransfer txid nid bn ts fa p.1 p.2 0]) := by
      simp [regularStep]
    rw [List.foldl_cons, hstep]
    obtain ⟨suffix, heq, hz⟩ := ih (acc ++ [mkTransfer txid nid bn ts fa p.1 p.2 0])
    refine ⟨mkTransfer txid nid bn ts fa p.1 p.2 0 :: suffix, by rw [heq]; simp, ?_⟩
    intro u hu
    rcases List.mem_cons.mp hu with hu | hu
    · rw [hu]
      simp
    · exact hz u hu

theorem regular_foldl_false (ia : List String) (fa txid nid : String) (bn ts : Nat)
    (fee : Rat) (hfee : fee ≠ 0) (ps : List (String × Rat)) :
    ∀ acc : List NormalizedTx, (∀ u ∈ acc, u.toAddress ∈ ia ∧ u.txFee = 0) →
      (∃ pre tr post,
        (ps.foldl (regularStep ia fa txid nid bn ts fee) (false, acc)).2 =
          pre ++ tr :: post ∧
        (∀ u ∈ pre, u.toAddress ∈ ia ∧ u.txFee = 0) ∧
        tr.toAddress ∉ ia ∧ tr.txFee = fee ∧ (∀ u ∈ post, u.txFee = 0)) ∨
      (∀ u ∈ (ps.foldl (regularStep ia fa txid nid bn ts fee) (false, acc)).2,
        u.toAddress ∈ ia ∧ u.txFee = 0) := by
  induction ps with
  | nil =>
    intro acc hacc
    right
    simpa using hacc
  | cons p t ih =>
    intro acc hacc
    rw [List.foldl_cons]
    by_cases hch : p.1 ∈ ia
    · have hstep : regularStep ia fa txid nid bn ts fee (false, acc) p =
          (false, acc ++ [mkTransfer txid nid bn ts fa p.1 p.2 0]) := by
        simp [regularStep, hch]
      rw [hstep]
      refine ih (acc ++ [mkTransfer txid nid bn ts fa p.1 p.2 0]) ?_
      intro u hu
      rcases List.mem_append.mp hu with hu | hu
      · exact hacc u hu
      · rcases List.mem_singleton.mp hu with rfl
        exact ⟨by simpa using hch, rfl⟩
    · have hstep : regularStep ia fa txid nid bn ts fee (false, acc) p =
          (true, acc ++ [mkTransfer txid nid bn ts fa p.1 p.2 fee]) := by
        simp [regularStep, hch, hfee]
      rw [hstep]
      obtain ⟨suffix, heq, hz⟩ :=
        regular_foldl_true ia fa txid nid bn ts fee t
          (acc ++ [mkTransfer txid nid bn ts fa p.1 p.2 fee])
      left
      refine ⟨acc, mkTransfer txid nid bn ts fa p.1 p.2 fee, suffix, ?_, hacc,
        by simpa using hch, by simp, hz⟩
      rw [heq]
      simp

theorem fallback_foldl_true (txid nid : String) (bn ts : Nat) (fee : Rat)
    (ps : List (String × Rat)) :
    ∀ acc : List NormalizedTx,
      ∃ suffix,
        ps.foldl (fallbackStep txid nid bn ts fee) (true, acc) = (true, acc ++ suffix) ∧
        ∀ u ∈ suffix, u.txFee = 0 := by
  induction ps with
  | nil =>
    intro acc
    exact ⟨[], by simp, by simp⟩
  | cons p t ih =>
    intro acc
    have hstep : fallbackStep txid nid bn ts fee (true, acc) p =
        (true, acc ++ [mkTransfer txid nid bn ts "" p.1 p.2 0]) := by
      simp [fallbackStep]
    rw [List.foldl_cons, hstep]
    obtain ⟨suffix, heq, hz⟩ := ih (acc ++ [mkTransfer txid nid bn ts "" p.1 p.2 0])
    refine ⟨mkTransfer txid nid bn ts "" p.1 p.2 0 :: suffix, by rw [heq]; simp, ?_⟩
    intro u hu
    rcases List.mem_cons.mp hu with hu | hu
    · rw [hu]
      simp
    · exact hz u hu

/-- Claim C2: for every non-coinbase transaction with fee `f > 0`, the
transfers emitted by `ExtractTransfers` either contain exactly one transfer
carrying `txFee = f` — the first emitted transfer whose destination address is
not among the input addresses, every transfer before it being a change output
with `txFee = 0` and every transfer after it carrying `txFee = 0` — or, when
every emitted transfer's destination is among the input addresses (all
outputs classified as change), no transfer carries the fee. -/
theorem extractTransfers_fee_attribution (nid : String) (bn ts : Nat) (fee : Rat)
    (tx : Transaction) (hcb : tx.IsCoinbase = false) (hf : 0 < fee) :
    (∃ pre tr post,
        tx.ExtractTransfers nid bn ts fee = pre ++ tr :: post ∧
        (∀ u ∈ pre, u.toAddress ∈ tx.ExtractInputAddresses ∧ u.txFee = 0) ∧
        tr.toAddress ∉ tx.ExtractInputAddresses ∧ tr.txFee = fee ∧
        (∀ u ∈ post, u.txFee = 0)) ∨
      ((∀ u ∈ tx.ExtractTransfers nid bn ts fee,
          u.toAddress ∈ tx.ExtractInputAddresses) ∧
        (∀ u ∈ tx.ExtractTransfers nid bn ts fee, u.txFee = 0)) := by
  have hfee : fee ≠ 0 := ne_of_gt hf
  unfold Transaction.ExtractTransfers
  rw [hcb]
  simp only [Bool.false_eq_true, if_false]
  rcases h : tx.ExtractInputAddresses with _ | ⟨a0, rest⟩
  · -- fallback path: no input addresses
    dsimp only
    rcases hg : tx.GroupOutputsByAddress with _ | ⟨p, t⟩
    · simp
    · rw [List.foldl_cons]
      have hstep : fallbackStep tx.txid nid bn ts fee (false, []) p =
          (true, [mkTransfer tx.txid nid bn ts "" p.1 p.2 fee]) := by
        simp [fallbackStep, hfee]
      rw [hstep]
      obtain ⟨suffix, heq, hz⟩ :=
        fallback_foldl_true tx.txid nid bn ts fee t [mkTransfer tx.txid nid bn ts "" p.1 p.2 fee]
      left
      refine ⟨[], mkTransfer tx.txid nid bn ts "" p.1 p.2 fee, suffix, ?_, by simp,
        by simp, by simp, hz⟩
      rw [heq]
      simp
  · -- regular path: the first input address is a0
    dsimp only
    rcases regular_foldl_false (a0 :: rest)
      (if 0 < rest.length then a0 ++ "+" ++ toString rest.length ++ "_more" else a0)
      tx.txid nid bn ts fee hfee tx.GroupOutputsByAddress [] (by simp) with hgood | hall
    · exact Or.inl hgood
    · right
      exact ⟨fun u hu => (hall u hu).1, fun u hu => (hall u hu).2⟩

/-- A concrete 1-input 2-output spend: the witness input for claim C2. -/
def feeAttrTx : Transaction :=
  { txid := "t2",
    vin := [{ txid := "p0", vout := 0,
              prevOut := some { value := 2, scriptPubKey := { address := "A" } } }],
    vout := [{ value := 1, scriptPubKey := { address := "B" } },
             { value := 1, scriptPubKey := { address := "A" } }] }

/-- Witness for `extractTransfers_fee_attribution` at the concrete transaction
`feeAttrTx` with fee 1. -/
theorem extractTransfers_fee_attribution_witness :
    feeAttrTx.IsCoinbase = false ∧ (0 : Rat) < 1 ∧
      ((∃ pre tr post,
          feeAttrTx.ExtractTransfers "net" 1 2 1 = pre ++ tr :: post ∧
          (∀ u ∈ pre, u.toAddress ∈ feeAttrTx.ExtractInputAddresses ∧ u.txFee = 0) ∧
          tr.toAddress ∉ feeAttrTx.ExtractInputAddresses ∧ tr.txFee = 1 ∧
          (∀ u ∈ post, u.txFee = 0)) ∨
        ((∀ u ∈ feeAttrTx.ExtractTransfers "net" 1 2 1,
            u.toAddress ∈ feeAttrTx.ExtractInputAddresses) ∧
          (∀ u ∈ feeAttrTx.ExtractTransfers "net" 1 2 1, u.txFee = 0))) :=
  ⟨by decide, by norm_num,
    extractTransfers_fee_attribution "net" 1 2 1 feeAttrTx (by decide) (by norm_num)⟩

/-- The output filter applied by both branches of `ExtractTransfers` and by
`GroupOutputsByAddress`: positive value and at least one extracted address. -/
def outputQualifies (v : Vout) : Bool :=
  decide (0 < v.value) && decide (ExtractAddresses v.scriptPubKey ≠ [])

theorem coinbase_foldl (txid nid : String) (bn ts : Nat) (l : List Vout) :
    ∀ acc : List NormalizedTx,
      l.foldl (coinbaseStep txid nid bn ts) acc =
        acc ++ (l.filter outputQualifies).flatMap
          (fun v => (ExtractAddresses v.scriptPubKey).map
            (fun addr => mkMiningTransfer txid nid bn ts addr v.value)) := by
  induction l with
  | nil => intro acc; simp
  | cons v t ih =>
    intro acc
    rw [List.foldl_cons]
    by_cases h1 : v.value ≤ 0
    · have hnpos : ¬(0 < v.value) := not_lt.mpr h1
      have hq : outputQualifies v = false := by
        simp [outputQualifies, hnpos]
      have hstep : coinbaseStep txid nid bn ts acc v = acc := by
        simp [coinbaseStep, h1]
      rw [hstep, ih, List.filter_cons, hq]
      simp
    · by_cases h2 : (ExtractAddresses v.scriptPubKey).length = 0
      · have hq : outputQualifies v = false := by
          simp [outputQualifies, List.length_eq_zero.mp h2]
        have hstep : coinbaseStep txid nid bn ts acc v = acc := by
          simp [coinbaseStep, h1, h2]
        rw [hstep, ih, List.filter_cons, hq]
        simp
      · have hq : outputQualifies v = true := by
          simp [outputQualifies, not_le.mp h1]
          exact fun hnil => h2 (by simp [hnil])
        have hstep : coinbaseStep txid nid bn ts acc v =
            acc ++ (ExtractAddresses v.scriptPubKey).map
              (fun addr => mkMiningTransfer txid nid bn ts addr v.value) := by
          simp [coinbaseStep, h1, h2]
        rw [hstep, ih, List.filter_cons, hq]
        simp

/-- Claim C3: for every coinbase transaction, `ExtractTransfers` emits exactly
one transfer per extracted address of each output with positive value and a
non-empty extracted-address set, carrying that output's full value; and every
emitted transfer has `FromAddress = "coinbase"`, `TxFee = 0` and the mining
type. -/
theorem extractTransfers_coinbase (nid : String) (bn ts : Nat) (fee : Rat)
    (tx : Transaction) (hcb : tx.IsCoinbase = true) :
    tx.ExtractTransfers nid bn ts fee =
      (tx.vout.filter outputQualifies).flatMap
        (fun v => (ExtractAddresses v.scriptPubKey).map
          (fun addr => mkMiningTransfer tx.txid nid bn ts addr v.value)) ∧
    (∀ u ∈ tx.ExtractTransfers nid bn ts fee,
      u.fromAddress = "coinbase" ∧ u.txFee = 0 ∧ u.txnType = TxnType.mining) := by
  have heq : tx.ExtractTransfers nid bn ts fee =
      (tx.vout.filter outputQualifies).flatMap
        (fun v => (ExtractAddresses v.scriptPubKey).map
          (fun addr => mkMiningTransfer tx.txid nid bn ts addr v.value)) := by
    unfold Transaction.ExtractTransfers
    rw [hcb]
    simp only [if_true]
    rw [coinbase_foldl]
    simp
  refine ⟨heq, ?_⟩
  intro u hu
  rw [heq] at hu
  rcases List.mem_flatMap.mp hu with ⟨v, hv, hu2⟩
  rcases List.mem_map.mp hu2 with ⟨addr, haddr, rfl⟩
  exact ⟨rfl, rfl, rfl⟩

/-- A concrete coinbase transaction: the witness input for claim C3. -/
def coinbaseTx : Transaction :=
  { txid := "c1", vin := [{ coinbase := "03abc" }],
    vout := [{ value := 6, scriptPubKey := { address := "bc1qminer" } },
             { value := 0, scriptPubKey := { address := "x" } }] }

/-- Witness for `extractTransfers_coinbase` at the concrete transaction
`coinbaseTx`. -/
theorem extractTransfers_coinbase_witness :
    coinbaseTx.IsCoinbase = true ∧
      (coinbaseTx.ExtractTransfers "net" 1 2 0 =
        (coinbaseTx.vout.filter outputQualifies).flatMap
          (fun v => (ExtractAddresses v.scriptPubKey).map
            (fun addr => mkMiningTransfer coinbaseTx.txid "net" 1 2 addr v.value)) ∧
      (∀ u ∈ coinbaseTx.ExtractTransfers "net" 1 2 0,
        u.fromAddress = "coinbase" ∧ u.txFee = 0 ∧ u.txnType = TxnType.mining)) :=
  ⟨by decide, extractTransfers_coinbase "net" 1 2 0 coinbaseTx (by decide)⟩

/-- The sum of the values of an address-keyed output map. -/
def sndSum (m : List (String × Rat)) : Rat :=
  (m.map (fun p => p.2)).sum

theorem insertAdd_sndSum (m : List (String × Rat)) (a : String) (v : Rat) :
    sndSum (insertAdd m a v) = sndSum m + v := by
  induction m with
  | nil => simp [insertAdd, sndSum]
  | cons q rest ih =>
    rcases q with ⟨b, x⟩
    by_cases hb : b = a
    · simp [insertAdd, hb, sndSum]
      ring
    · simp [insertAdd, hb, sndSum] at ih ⊢
      rw [ih]
      ring

theorem addr_foldl_sndSum (v : Rat) (addrs : List String) :
    ∀ m, sndSum (addrs.foldl (fun m2 addr => insertAdd m2 addr v) m) =
      sndSum m + (addrs.length : Rat) * v := by
  induction addrs with
  | nil => intro m; simp
  | cons a t ih =>
    intro m
    rw [List.foldl_cons, ih (insertAdd m a v), insertAdd_sndSum]
    simp only [List.length_cons]
    push_cast
    ring

theorem group_foldl_sndSum (l : List Vout) :
    ∀ m, sndSum (l.foldl groupStep m) =
      sndSum m + ((l.filter outputQualifies).map
        (fun v => v.value * ((ExtractAddresses v.scriptPubKey).length : Rat))).sum := by
  induction l with
  | nil => intro m; simp
  | cons v t ih =>
    intro m
    rw [List.foldl_cons]
    by_cases h1 : v.value ≤ 0
    · have hq : outputQualifies v = false := by
        simp [outputQualifies, not_lt.mpr h1]
      have hstep : groupStep m v = m := by
        simp [groupStep, h1]
      rw [hstep, ih, List.filter_cons, hq]
      simp
    · by_cases h2 : (ExtractAddresses v.scriptPubKey).length = 0
      · have hq : outputQualifies v = false := by
          simp [outputQualifies, List.length_eq_zero.mp h2]
        have hstep : groupStep m v = m := by
          simp [groupStep, h1, h2]
        rw [hstep, ih, List.filter_cons, hq]
        simp
      · have hq : outputQualifies v = true := by
          simp [outputQualifies, not_le.mp h1]
          exact fun hnil => h2 (by simp [hnil])
        have hstep : groupStep m v =
            (ExtractAddresses v.scriptPubKey).foldl
              (fun m2 addr => insertAdd m2 addr v.value) m := by
          simp [groupStep, h1, h2]
        rw [hstep, ih, addr_foldl_sndSum, List.filter_cons, hq]
        simp
        ring

theorem groupOutputsByAddress_sndSum (tx : Transaction) :
    sndSum tx.GroupOutputsByAddress =
      ((tx.vout.filter outputQualifies).map
        (fun v => v.value * ((ExtractAddresses v.scriptPubKey).length : Rat))).sum := by
  unfold Transaction.GroupOutputsByAddress
  rw [group_foldl_sndSum]
  simp [sndSum]

theorem regularStep_shape (ia : List String) (fa txid nid : String) (bn ts : Nat)
    (fee : Rat) (st : Bool × List NormalizedTx) (p : String × Rat) :
    ∃ b2 w, regularStep ia fa txid nid bn ts fee st p =
      (b2, st.2 ++ [mkTransfer txid nid bn ts fa p.1 p.2 w]) := by
  unfold regularStep
  by_cases hc : st.1 = false ∧ ¬(p.1 ∈ ia) ∧ fee ≠ 0
  · exact ⟨true, fee, by rw [if_pos hc]⟩
  · exact ⟨st.1, 0, by rw [if_neg hc]⟩

theorem fallbackStep_shape (txid nid : String) (bn ts : Nat) (fee : Rat)
    (st : Bool × List NormalizedTx) (p : String × Rat) :
    ∃ b2 w, fallbackStep txid nid bn ts fee st p =
      (b2, st.2 ++ [mkTransfer txid nid bn ts "" p.1 p.2 w]) := by
  unfold fallbackStep
  by_cases hc : st.1 = false ∧ fee ≠ 0
  · exact ⟨true, fee, by rw [if_pos hc]⟩
  · exact ⟨st.1, 0, by rw [if_neg hc]⟩

theorem regular_foldl_amounts (ia : List String) (fa txid nid : String) (bn ts : Nat)
    (fee : Rat) (ps : List (String × Rat)) :
    ∀ (b : Bool) (acc : List NormalizedTx),
      ((ps.foldl (regularStep ia fa txid nid bn ts fee) (b, acc)).2).map (fun u => u.amount) =
        acc.map (fun u => u.amount) ++ ps.map (fun p => p.2) := by
  induction ps with
  | nil => intro b acc; simp
  | cons p t ih =>
    intro b acc
    obtain ⟨b2, w, hstep⟩ := regularStep_shape ia fa txid nid bn ts fee (b, acc) p
    rw [List.foldl_cons, hstep, ih b2 (acc ++ [mkTransfer txid nid bn ts fa p.1 p.2 w])]
    simp

theorem fallback_foldl_amounts (txid nid : String) (bn ts : Nat)
    (fee : Rat) (ps : List (String × Rat)) :
    ∀ (b : Bool) (acc : List NormalizedTx),
      ((ps.foldl (fallbackStep txid nid bn ts fee) (b, acc)).2).map (fun u => u.amount) =
        acc.map (fun u => u.amount) ++ ps.map (fun p => p.2) := by
  induction ps with
  | nil => intro b acc; simp
  | cons p t ih =>
    intro b acc
    obtain ⟨b2, w, hstep⟩ := fallbackStep_shape txid nid bn ts fee (b, acc) p
    rw [List.foldl_cons, hstep, ih b2 (acc ++ [mkTransfer txid nid bn ts "" p.1 p.2 w])]
    simp

theorem mining_flatMap_amount_sum (txid nid : String) (bn ts : Nat) (l : List Vout) :
    ((l.flatMap (fun v => (ExtractAddresses v.scriptPubKey).map
        (fun addr => mkMiningTransfer txid nid bn ts addr v.value))).map
      (fun u => u.amount)).sum =
      (l.map (fun v => v.value * ((ExtractAddresses v.scriptPubKey).length : Rat))).sum := by
  induction l with
  | nil => simp
  | cons v t ih =>
    rw [List.flatMap_cons]
    simp only [List.map_append, List.sum_append, ih, List.map_map, List.map_cons,
      List.sum_cons]
    congr 1
    have hconst : ((ExtractAddresses v.scriptPubKey).map
        ((fun u => u.amount) ∘ fun addr => mkMiningTransfer txid nid bn ts addr v.value)) =
        (ExtractAddresses v.scriptPubKey).map (fun _ => v.value) := by
      apply List.map_congr_left
      intro a _
      rfl
    rw [hconst, List.map_const', List.sum_replicate, nsmul_eq_mul]
    ring

/-- A coinbase transaction with a two-address (legacy multisig style) output:
the counterexample input for claim C4. -/
def multiAddrTx : Transaction :=
  { txid := "c2", vin := [{ coinbase := "03" }],
    vout := [{ value := 1, scriptPubKey := { address := "", addresses := ["a", "b"] } }] }

/-- Counterexample to claim C4: on a transaction whose single qualifying
output carries two extracted addresses, the emitted transfer amounts sum to 2
while the qualifying outputs' values sum to 1 — the sums differ, because
`ExtractTransfers` emits the full output value once per extracted address. -/
theorem extractTransfers_amount_sum_cex :
    ((multiAddrTx.ExtractTransfers "n" 0 0 0).map (fun u => u.amount)).sum = 2 ∧
      ((multiAddrTx.vout.filter outputQualifies).map (fun v => v.value)).sum = 1 ∧
      ((multiAddrTx.ExtractTransfers "n" 0 0 0).map (fun u => u.amount)).sum ≠
        ((multiAddrTx.vout.filter outputQualifies).map (fun v => v.value)).sum := by
  refine ⟨?_, ?_, ?_⟩ <;>
    simp [multiAddrTx, Transaction.ExtractTransfers, Transaction.IsCoinbase,
      coinbaseStep, ExtractAddresses, outputQualifies, mkMiningTransfer] <;>
    try norm_num

/-- Claim C4 (amended): for every transaction, the sum of the `Amount` fields
over all transfers emitted by `ExtractTransfers` equals the sum over the
qualifying outputs (positive value, at least one extracted address) of the
output's value multiplied by its number of extracted addresses.  It equals
the plain sum of qualifying `vout.value` only when every qualifying output
has exactly one extracted address; the fee is never involved. -/
theorem extractTransfers_amount_sum (nid : String) (bn ts : Nat) (fee : Rat)
    (tx : Transaction) :
    ((tx.ExtractTransfers nid bn ts fee).map (fun u => u.amount)).sum =
      ((tx.vout.filter outputQualifies).map
        (fun v => v.value * ((ExtractAddresses v.scriptPubKey).length : Rat))).sum := by
  unfold Transaction.ExtractTransfers
  by_cases hcb : tx.IsCoinbase
  · rw [hcb]
    simp only [if_true]
    rw [coinbase_foldl]
    simp only [List.nil_append]
    rw [mining_flatMap_amount_sum]
  · simp only [hcb, Bool.false_eq_true, if_false]
    rcases h : tx.ExtractInputAddresses with _ | ⟨a0, rest⟩
    · dsimp only
      rw [fallback_foldl_amounts]
      simp only [List.map_nil, List.nil_append]
      rw [← sndSum, ← groupOutputsByAddress_sndSum]
    · dsimp only
      rw [regular_foldl_amounts]
      simp only [List.map_nil, List.nil_append]
      rw [← sndSum, ← groupOutputsByAddress_sndSum]

/-- An RPC error of the kind Bitcoin Core returns for an unsupported
`getblock` verbosity: the counterexample input for claim C5. -/
def unsupportedVerbosityErr : RPCError :=
  { code := -8, message := "verbosity 3 not supported" }

/-- The block the counterexample client serves at verbosity 2. -/
def fallbackBlock : Block := { hash := "h2", height := 10 }

/-- A client whose `getblock` fails with an unsupported-verbosity error at
verbosity 3 and succeeds at any other verbosity. -/
def cexClient : BitcoinRPC :=
  { getblock := fun _ v =>
      if v = 3 then Except.error unsupportedVerbosityErr else Except.ok fallbackBlock }

/-- Counterexample to claim C5: when `getblock hash 3` fails with an RPC error
indicating unsupported verbosity, `GetBlockWithPrevOut` does NOT return that
error to its caller — it internally retries at verbosity 2 and returns that
result. -/
theorem getBlockWithPrevOut_fallback_cex :
    cexClient.getblock "h" 3 = Except.error unsupportedVerbosityErr ∧
      GetBlockWithPrevOut cexClient "h" = Except.ok fallbackBlock ∧
      GetBlockWithPrevOut cexClient "h" ≠ Except.error unsupportedVerbosityErr :=
  ⟨rfl, rfl, fun h => Except.noConfusion h⟩

/-- Claim C5 (amended): `GetBlockWithPrevOut` issues `getblock` with
verbosity 3; when that succeeds it returns the block, and on ANY RPC error it
itself falls back to `GetBlockVerbose`, i.e. returns the result of `getblock`
at verbosity 2 instead of surfacing the verbosity-3 error.  (The orchestrator
`GetBlock` performs a second, now redundant, verbosity-2 fallback of its
own.) -/
theorem getBlockWithPrevOut_fallback (c : BitcoinRPC) (hash : String) :
    (∀ b, c.getblock hash 3 = Except.ok b → GetBlockWithPrevOut c hash = Except.ok b) ∧
      (∀ e, c.getblock hash 3 = Except.error e →
        GetBlockWithPrevOut c hash = c.getblock hash 2) := by
  constructor
  · intro b hb
    unfold GetBlockWithPrevOut
    rw [hb]
  · intro e he
    unfold GetBlockWithPrevOut
    rw [he]
    rfl

/-- Witness for `getBlockWithPrevOut_fallback` at the concrete client
`cexClient`. -/
theorem getBlockWithPrevOut_fallback_witness :
    cexClient.getblock "h" 3 = Except.error unsupportedVerbosityErr ∧
      GetBlockWithPrevOut cexClient "h" = cexClient.getblock "h" 2 :=
  ⟨rfl, (getBlockWithPrevOut_fallback cexClient "h").2 unsupportedVerbosityErr rfl⟩

/-- Claim C8: `EnrichBlockWithPrevOuts` never returns an error for a (non-nil)
block; `enrichVin` assigns `vin.prevOut` from `prevTx.vout` only under the
guard `vin.Vout < len(prevTx.Vout)` (the in-bounds read is witnessed by the
guard's proof), while a vin whose fetch fails or whose referenced index is out
of range is left unchanged. -/
theorem enrichBlock_guard_safety (fetch : String → Option Transaction) (b : Block) :
    (∃ b', EnrichBlockWithPrevOuts fetch (some b) = Except.ok b') ∧
      (∀ vin : Vin, fetch vin.txid = none → enrichVin fetch vin = vin) ∧
      (∀ (vin : Vin) (prevTx : Transaction), fetch vin.txid = some prevTx →
        prevTx.vout.length ≤ vin.vout → enrichVin fetch vin = vin) ∧
      (∀ (vin : Vin) (prevTx : Transaction), fetch vin.txid = some prevTx →
        vin.txid ≠ "" → vin.coinbase = "" →
        ∀ h : vin.vout < prevTx.vout.length,
          enrichVin fetch vin =
            { vin with prevOut := some ⟨(prevTx.vout.get ⟨vin.vout, h⟩).value,
                (prevTx.vout.get ⟨vin.vout, h⟩).scriptPubKey⟩ }) := by
  refine ⟨⟨_, rfl⟩, ?_, ?_, ?_⟩
  · intro vin hf
    unfold enrichVin
    by_cases hskip : vin.txid = "" ∨ vin.coinbase ≠ ""
    · rw [if_pos hskip]
    · rw [if_neg hskip, hf]
  · intro vin prevTx hf hle
    unfold enrichVin
    by_cases hskip : vin.txid = "" ∨ vin.coinbase ≠ ""
    · rw [if_pos hskip]
    · rw [if_neg hskip, hf]
      exact dif_neg (not_lt.mpr hle)
  · intro vin prevTx hf ht hc h
    unfold enrichVin
    rw [if_neg (by simp [ht, hc]), hf]
    exact dif_pos h

/-- The previous transaction served by the witness fetcher for claim C8. -/
def witnessPrevTx : Transaction :=
  { txid := "pp", vout := [{ value := 5, scriptPubKey := { address := "A" } }] }

/-- The witness fetcher for claim C8: serves `witnessPrevTx` for txid `"pp"`
and fails otherwise. -/
def witnessFetch : String → Option Transaction :=
  fun t => if t = "pp" then some witnessPrevTx else none

/-- A vin referencing an out-of-range output index. -/
def witnessVinOut : Vin := { txid := "pp", vout := 7 }

/-- A vin referencing an in-range output index. -/
def witnessVinIn : Vin := { txid := "pp", vout := 0 }

/-- Witness for `enrichBlock_guard_safety`: the out-of-range vin is left
unchanged, the in-range vin receives the referenced prevout, and the
(empty) block enriches without error. -/
theorem enrichBlock_guard_safety_witness :
    (∃ b', EnrichBlockWithPrevOuts witnessFetch (some { hash := "bh" }) = Except.ok b') ∧
      enrichVin witnessFetch witnessVinOut = witnessVinOut ∧
      enrichVin witnessFetch witnessVinIn =
        { witnessVinIn with prevOut := some ⟨5, { address := "A" }⟩ } :=
  ⟨(enrichBlock_guard_safety witnessFetch { hash := "bh" }).1,
    (enrichBlock_guard_safety witnessFetch { hash := "bh" }).2.2.1 witnessVinOut
      witnessPrevTx rfl (by decide),
    (enrichBlock_guard_safety witnessFetch { hash := "bh" }).2.2.2 witnessVinIn
      witnessPrevTx rfl (by decide) (by decide) (by decide)⟩

theorem enrichVin_frame (fetch : String → Option Transaction) (v : Vin) :
    (enrichVin fetch v).txid = v.txid ∧ (enrichVin fetch v).vout = v.vout ∧
      (enrichVin fetch v).scriptSig = v.scriptSig ∧
      (enrichVin fetch v).sequence = v.sequence ∧
      (enrichVin fetch v).coinbase = v.coinbase := by
  unfold enrichVin
  split
  · exact ⟨rfl, rfl, rfl, rfl, rfl⟩
  · split
    · exact ⟨rfl, rfl, rfl, rfl, rfl⟩
    · split
      · exact ⟨rfl, rfl, rfl, rfl, rfl⟩
      · exact ⟨rfl, rfl, rfl, rfl, rfl⟩

theorem enrichTx_frame (fetch : String → Option Transaction) (t : Transaction) :
    (t.IsCoinbase = true → enrichTx fetch t = t) ∧
      (t.HasPrevOutData = true → enrichTx fetch t = t) ∧
      (enrichTx fetch t).txid = t.txid ∧ (enrichTx fetch t).hash = t.hash ∧
      (enrichTx fetch t).version = t.version ∧ (enrichTx fetch t).vsize = t.vsize ∧
      (enrichTx fetch t).locktime = t.locktime ∧
      (enrichTx fetch t).vout = t.vout ∧
      (enrichTx fetch t).vin.length = t.vin.length ∧
      (∀ (j : Nat) (v v' : Vin), t.vin[j]? = some v →
        (enrichTx fetch t).vin[j]? = some v' →
        v'.txid = v.txid ∧ v'.vout = v.vout ∧ v'.scriptSig = v.scriptSig ∧
        v'.sequence = v.sequence ∧ v'.coinbase = v.coinbase) := by
  unfold enrichTx
  by_cases h1 : t.IsCoinbase = true
  · rw [if_pos h1]
    refine ⟨fun _ => rfl, fun _ => rfl, rfl, rfl, rfl, rfl, rfl, rfl, rfl, ?_⟩
    intro j v v' hv hv'
    rw [hv] at hv'
    obtain rfl : v = v' := Option.some_inj.mp hv'
    exact ⟨rfl, rfl, rfl, rfl, rfl⟩
  · rw [if_neg h1]
    by_cases h2 : t.HasPrevOutData = true
    · rw [if_pos h2]
      refine ⟨fun _ => rfl, fun _ => rfl, rfl, rfl, rfl, rfl, rfl, rfl, rfl, ?_⟩
      intro j v v' hv hv'
      rw [hv] at hv'
      obtain rfl : v = v' := Option.some_inj.mp hv'
      exact ⟨rfl, rfl, rfl, rfl, rfl⟩
    · rw [if_neg h2]
      refine ⟨fun hcb => absurd hcb h1, fun hpd => absurd hpd h2, rfl, rfl, rfl, rfl,
        rfl, rfl, by simp, ?_⟩
      intro j v v' hv hv'
      have hm : (t.vin.map (enrichVin fetch))[j]? = some v' := hv'
      rw [List.getElem?_map, hv] at hm
      obtain rfl : enrichVin fetch v = v' := Option.some_inj.mp hm
      have hf := enrichVin_frame fetch v
      exact ⟨hf.1, hf.2.1, hf.2.2.1, hf.2.2.2.1, hf.2.2.2.2⟩

/-- Claim C9: for every non-nil block, `EnrichBlockWithPrevOuts` mutates only
the `prevOut` fields of vin entries belonging to non-coinbase transactions
that had no prevout data on entry: all modelled block header fields are
unchanged, coinbase transactions and transactions that already had prevout
data are returned untouched, and in every transaction the txid, hash, vout
list and every other vin field are unchanged, with transaction and vin counts
preserved. -/
theorem enrichBlock_frame (fetch : String → Option Transaction) (b b' : Block)
    (h : EnrichBlockWithPrevOuts fetch (some b) = Except.ok b') :
    b'.hash = b.hash ∧ b'.height = b.height ∧ b'.time = b.time ∧
      b'.previousBlockHash = b.previousBlockHash ∧
      b'.tx.length = b.tx.length ∧
      (∀ (i : Nat) (t : Transaction), b.tx[i]? = some t → t.IsCoinbase = true →
        b'.tx[i]? = some t) ∧
      (∀ (i : Nat) (t : Transaction), b.tx[i]? = some t → t.HasPrevOutData = true →
        b'.tx[i]? = some t) ∧
      (∀ (i : Nat) (t t' : Transaction), b.tx[i]? = some t → b'.tx[i]? = some t' →
        t'.txid = t.txid ∧ t'.hash = t.hash ∧ t'.vout = t.vout ∧
        t'.vin.length = t.vin.length ∧
        (∀ (j : Nat) (v v' : Vin), t.vin[j]? = some v → t'.vin[j]? = some v' →
          v'.txid = v.txid ∧ v'.vout = v.vout ∧ v'.scriptSig = v.scriptSig ∧
          v'.sequence = v.sequence ∧ v'.coinbase = v.coinbase)) := by
  have hb' : b' = { b with tx := b.tx.map (enrichTx fetch) } := by
    have h2 : (Except.ok { b with tx := b.tx.map (enrichTx fetch) } :
        Except String Block) = Except.ok b' := h
    exact (Except.ok.inj h2).symm
  subst hb'
  refine ⟨rfl, rfl, rfl, rfl, by simp, ?_, ?_, ?_⟩
  · intro i t ht hcb
    show (b.tx.map (enrichTx fetch))[i]? = some t
    rw [List.getElem?_map, ht]
    simp [(enrichTx_frame fetch t).1 hcb]
  · intro i t ht hpd
    show (b.tx.map (enrichTx fetch))[i]? = some t
    rw [List.getElem?_map, ht]
    simp [(enrichTx_frame fetch t).2.1 hpd]
  · intro i t t' ht ht'
    have hm : (b.tx.map (enrichTx fetch))[i]? = some t' := ht'
    rw [List.getElem?_map, ht] at hm
    obtain rfl : enrichTx fetch t = t' := Option.some_inj.mp hm
    have hf := enrichTx_frame fetch t
    exact ⟨hf.2.2.1, hf.2.2.2.1, hf.2.2.2.2.2.2.2.1, hf.2.2.2.2.2.2.2.2.1,
      hf.2.2.2.2.2.2.2.2.2⟩

/-- The witness block for claim C9: one non-coinbase transaction with a single
vin lacking prevout data. -/
def frameBlockIn : Block :=
  { hash := "bh", height := 3, time := 4, previousBlockHash := "ph",
    tx := [{ txid := "t0", vin := [{ txid := "pp", vout := 0 }] }] }

/-- The enrichment result on `frameBlockIn` under `witnessFetch`: only the
vin's prevout was filled in. -/
def frameBlockOut : Block :=
  { hash := "bh", height := 3, time := 4, previousBlockHash := "ph",
    tx := [{ txid := "t0",
             vin := [{ txid := "pp", vout := 0,
                       prevOut := some ⟨5, { address := "A" }⟩ }] }] }

/-- Witness for `enrichBlock_frame` at the concrete block `frameBlockIn`. -/
theorem enrichBlock_frame_witness :
    frameBlockOut.hash = frameBlockIn.hash ∧
      frameBlockOut.tx.length = frameBlockIn.tx.length :=
  ⟨(enrichBlock_frame witnessFetch frameBlockIn frameBlockOut rfl).1,
    (enrichBlock_frame witnessFetch frameBlockIn frameBlockOut rfl).2.2.2.2.1⟩

/-- Claim C10: `GetBlocks` errors on its own exactly when `to < from`
(returning the `"invalid range"` error without delegating); otherwise it
delegates to `GetBlocksByNumbers` on precisely the heights `from..to`
inclusive, listed in ascending order; and `GetBlocksByNumbers` on an empty
height list returns a nil result slice and a nil error. -/
theorem getBlocks_range_delegation (g : Nat → Option TypesBlock × Option String)
    (lo hi : Nat) :
    (hi < lo → GetBlocks g lo hi = (none, some "invalid range")) ∧
      (lo ≤ hi →
        GetBlocks g lo hi = GetBlocksByNumbers g (List.range' lo (hi - lo + 1)) ∧
        (List.range' lo (hi - lo + 1)).Pairwise (· < ·) ∧
        (∀ n, n ∈ List.range' lo (hi - lo + 1) ↔ lo ≤ n ∧ n ≤ hi)) ∧
      GetBlocksByNumbers g [] = (none, none) := by
  refine ⟨?_, ?_, ?_⟩
  · intro hlt
    unfold GetBlocks
    rw [if_pos hlt]
  · intro hle
    refine ⟨?_, List.pairwise_lt_range' lo (hi - lo + 1), ?_⟩
    · unfold GetBlocks
      rw [if_neg (not_lt.mpr hle)]
    · intro n
      rw [List.mem_range'_1]
      omega
  · rfl

/-- Witness for `getBlocks_range_delegation`: the inverted range `(2, 1)`
errors, and the range `(1, 2)` delegates to the height list `[1, 2]`. -/
theorem getBlocks_range_delegation_witness :
    GetBlocks (fun _ => (none, none)) 2 1 = (none, some "invalid range") ∧
      GetBlocks (fun _ => (none, none)) 1 2 =
        GetBlocksByNumbers (fun _ => (none, none)) (List.range' 1 2) :=
  ⟨(getBlocks_range_delegation (fun _ => (none, none)) 2 1).1 (by decide),
    ((getBlocks_range_delegation (fun _ => (none, none)) 1 2).2.1 (by decide)).1⟩

end MCI
